import Mathlib

/-!
Verification of the Edit Manager specification against the repository's code.

The repository contains the test suite `editManager.spec.ts`, which defines the
test change family (`TestChangeRebaser`, `TestAnchorSet`, `asDelta`,
`checkChangeList`, the scenario builder and runner) and pins down the observable
behaviour of the Edit Manager.  Those definitions are embedded below directly
from the source.  The Edit Manager implementation itself is not part of the
provided sources; it is modelled from the specification (sections 4.1 - 4.3),
with the in-repository tests taken as authoritative wherever the two disagree.

All fallible code (the `assert` calls and `fail()` paths of the source) is
embedded as `Except String`.
-/

set_option maxRecDepth 8000

/-- Embedding of `NonEmptyTestChangeset` from `editManager.spec.ts`:
`inputContext` identifies the document state the changeset applies to,
`outputContext` the state it brings about, `intentions` the editing
intentions it carries (inverted intentions are negative numbers). -/
structure NonEmptyTestChangeset where
  inputContext : List Int
  outputContext : List Int
  intentions : List Int
deriving DecidableEq, Repr

/-- Embedding of `TestChangeset`: either a `NonEmptyTestChangeset` or the
`emptyChange` constant `\x7b intentions: [] \x7d`. -/
inductive TestChangeset where
  | nonEmpty (c : NonEmptyTestChangeset)
  | empty
deriving DecidableEq, Repr

/-- The intentions carried by a changeset (`[]` for the empty change). -/
def TestChangeset.intentionsOf : TestChangeset → List Int
  | .nonEmpty c => c.intentions
  | .empty => []

namespace TestChangeRebaser

/-- One iteration of the loop body of `TestChangeRebaser.composeIntentions`:
push `extra`, unless it cancels with the last element of the accumulator. -/
def pushCancel (composed : List Int) (extra : Int) : List Int :=
  if composed.getLast? = some (-extra) then composed.dropLast else composed ++ [extra]

/-- Embedding of `TestChangeRebaser.composeIntentions`: appends `extras` to
`base`, cancelling each intention that is the negation of the (current) last
element, keeping sequences of intentions in canonical form. -/
def composeIntentions (base : List Int) (extras : List Int) : List Int :=
  extras.foldl pushCancel base

/-- Embedding of `TestChangeRebaser.mintChangeset`. -/
def mintChangeset (inputContext : List Int) (intention : Int) : NonEmptyTestChangeset :=
  { inputContext := inputContext
    outputContext := composeIntentions inputContext [intention]
    intentions := [intention] }

/-- Accumulator step of `TestChangeRebaser.compose`: the first component holds
the input/output contexts seen so far (if any non-empty change was seen), the
second the composed intentions.  The `assert.deepEqual` of the source is the
error branch. -/
def composeAcc (st : Option (List Int × List Int) × List Int) (change : TestChangeset) :
    Except String (Option (List Int × List Int) × List Int) :=
  match change with
  | .empty => .ok st
  | .nonEmpty c =>
    match st.1 with
    | none =>
      .ok (some (c.inputContext, composeIntentions c.inputContext c.intentions),
        composeIntentions st.2 c.intentions)
    | some (ic, oc) =>
      if c.inputContext = oc then
        .ok (some (ic, composeIntentions oc c.intentions), composeIntentions st.2 c.intentions)
      else .error "compose: input context does not match output context of previous change"

/-- Embedding of `TestChangeRebaser.compose`. -/
def compose (changes : List TestChangeset) : Except String TestChangeset := do
  let st ← changes.foldlM composeAcc (none, [])
  match st.1 with
  | some (ic, oc) => .ok (.nonEmpty { inputContext := ic, outputContext := oc, intentions := st.2 })
  | none => .ok .empty

/-- Embedding of `TestChangeRebaser.invert`: swaps the contexts and negates the
intentions in reverse order. -/
def invert (change : TestChangeset) : TestChangeset :=
  match change with
  | .nonEmpty c =>
    .nonEmpty { inputContext := c.outputContext
                outputContext := c.inputContext
                intentions := (c.intentions.map (fun i => -i)).reverse }
  | .empty => .empty

/-- Embedding of `TestChangeRebaser.rebase`: transposes `change` over `over`;
both must share the same input context (the `assert.deepEqual` of the source is
the error branch). -/
def rebase (change over : TestChangeset) : Except String TestChangeset :=
  match change with
  | .empty => .ok .empty
  | .nonEmpty c =>
    match over with
    | .empty => .ok (.nonEmpty c)
    | .nonEmpty o =>
      if c.inputContext = o.inputContext then
        .ok (.nonEmpty { inputContext := o.outputContext
                         outputContext := composeIntentions o.outputContext c.intentions
                         intentions := c.intentions })
      else .error "rebase: changes have different input contexts"

end TestChangeRebaser

/-- Embedding of `TestAnchorSet`: the log of non-empty changes the anchors have
been rebased over, and the accumulated intentions. -/
structure TestAnchorSet where
  rebases : List NonEmptyTestChangeset
  intentions : List Int
deriving DecidableEq, Repr

namespace TestChangeRebaser

/-- Embedding of `TestChangeRebaser.rebaseAnchors`: a non-empty `over` must
apply to the output context of the last logged rebase; it is appended to the
log and its intentions composed into the accumulated intentions. -/
def rebaseAnchors (anchors : TestAnchorSet) (over : TestChangeset) :
    Except String TestAnchorSet :=
  match over with
  | .empty => .ok anchors
  | .nonEmpty o =>
    match anchors.rebases.getLast? with
    | some lastChange =>
      if o.inputContext = lastChange.outputContext then
        .ok { rebases := anchors.rebases ++ [o]
              intentions := composeIntentions anchors.intentions o.intentions }
      else .error "rebaseAnchors: change does not apply to context of previous change"
    | none =>
      .ok { rebases := [o], intentions := composeIntentions anchors.intentions o.intentions }

/-- Chain condition of `TestChangeRebaser.checkChangeList`: each change applies
to the context brought about by the previous one. -/
def chainOk : List NonEmptyTestChangeset → Bool
  | [] => true
  | [_] => true
  | a :: b :: rest => decide (b.inputContext = a.outputContext) && chainOk (b :: rest)

/-- Embedding of `TestChangeRebaser.checkChangeList` as a boolean check: the
non-empty changes form a coherent chain and their composed intentions equal
`intentions`. -/
def checkChangeList (changes : List TestChangeset) (intentions : List Int) : Bool :=
  let filtered := changes.filterMap fun c =>
    match c with
    | .nonEmpty n => some n
    | .empty => none
  chainOk filtered &&
    decide ((filtered.foldl (fun acc n => composeIntentions acc n.intentions) []) = intentions)

end TestChangeRebaser

/-- Embedding of `Delta.Root` as used by the tests: `asDelta` produces either
the empty delta or a single root field holding the intentions. -/
inductive Delta where
  | empty
  | root (intentions : List Int)
deriving DecidableEq, Repr

/-- Embedding of `asDelta` from the test file. -/
def asDelta (intentions : List Int) : Delta :=
  if intentions = [] then .empty else .root intentions

/-- Embedding of the test change family's `intoDelta`:
`(change) => asDelta(change.intentions)`. -/
def intoDelta (change : TestChangeset) : Delta :=
  asDelta change.intentionsOf

/-- Embedding of `Commit` (session id, sequence number, reference number and
changeset). -/
structure Commit where
  sessionId : String
  seqNumber : Nat
  refNumber : Nat
  changeset : TestChangeset
deriving DecidableEq, Repr

/-- Modelled from the spec: the per-peer branch bookkeeping of the Edit
Manager (the peer's in-flight changes and the trunk sequence number the branch
is based on), which is not part of the provided sources. -/
structure Branch where
  localChanges : List TestChangeset
  refSeq : Nat
deriving DecidableEq, Repr

/-- Modelled from the spec: the state of the Edit Manager (section 3 of the
spec: session id, trunk, local branch; plus the shared anchor set and the
per-peer branches). -/
structure EditManager where
  localSessionId : String
  trunk : List Commit
  branches : List (String × Branch)
  localChanges : List TestChangeset
  anchors : TestAnchorSet
deriving DecidableEq, Repr

/-- Modelled from the spec: a freshly constructed Edit Manager with its session
id recorded via `setLocalSessionId`; all state starts empty. -/
def EditManager.init (sid : String) : EditManager :=
  { localSessionId := sid, trunk := [], branches := [], localChanges := [], anchors := ⟨[], []⟩ }

/-- Looks up the branch of a peer session, if one exists. -/
def getBranch (bs : List (String × Branch)) (sid : String) : Option Branch :=
  (bs.find? fun p => decide (p.1 = sid)).map (·.2)

/-- Replaces (or adds) the branch of a peer session. -/
def setBranch : List (String × Branch) → String → Branch → List (String × Branch)
  | [], sid, br => [(sid, br)]
  | (s, b) :: t, sid, br =>
    if s = sid then (sid, br) :: t else (s, b) :: setBranch t sid br

/-- Rebases a change over a list of changes, in order. -/
def rebaseChangeOverList (change : TestChangeset) (overs : List TestChangeset) :
    Except String TestChangeset :=
  overs.foldlM (fun acc o => TestChangeRebaser.rebase acc o) change

/-- Modelled from the spec (section 4.2, step 4): the loop that rebases a list
of pending branch changes over `tc`.  Each pending change is pulled back over
the inverses of the changes before it, rebased over `tc`, and pushed forward
over the already-rebased changes; the accumulated inverses are kept newest
first.  Returns the rebased changes and the inverses of the original ones. -/
def rebaseLoop (tc : TestChangeset) :
    List TestChangeset → List TestChangeset → List TestChangeset →
    Except String (List TestChangeset × List TestChangeset)
  | [], ncs, invs => .ok (ncs, invs)
  | l :: rest, ncs, invs => do
    let a ← rebaseChangeOverList l invs
    let b ← TestChangeRebaser.rebase a tc
    let c ← rebaseChangeOverList b ncs
    rebaseLoop tc rest (ncs ++ [c]) (TestChangeRebaser.invert l :: invs)

/-- Modelled from the spec (section 4.2, steps 2, 4, 5, 6): rebases the local
branch over the transposed remote change `trunkChange`, rebases the anchor set
over the net change, and emits `intoDelta` of the net change
`compose([undo..., trunkChange, redo...])`. -/
def rebaseLocalBranch (m : EditManager) (trunkChange : TestChangeset) :
    Except String (Delta × EditManager) := do
  let (ncs, invs) ← rebaseLoop trunkChange m.localChanges [] []
  let netChange ← TestChangeRebaser.compose (invs ++ [trunkChange] ++ ncs)
  let anchors ← TestChangeRebaser.rebaseAnchors m.anchors netChange
  .ok (intoDelta netChange, { m with localChanges := ncs, anchors := anchors })

/-- Modelled from the spec: replaying one trunk commit onto a peer branch.  A
commit authored by the branch's session acknowledges the branch head (which is
consumed); a foreign commit rebases the branch changes over it. -/
def updateBranchStep (sid : String) (bs : List TestChangeset) (t : Commit) :
    Except String (List TestChangeset) :=
  if t.sessionId = sid then .ok (bs.drop 1)
  else do
    let (ncs, _) ← rebaseLoop t.changeset bs [] []
    .ok ncs

/-- Modelled from the spec: advances a peer branch from its base `br.refSeq` to
`newRef` by replaying the trunk commits in between. -/
def updateBranch (trunk : List Commit) (sid : String) (br : Branch) (newRef : Nat) :
    Except String Branch := do
  let commits := trunk.filter fun t =>
    decide (br.refSeq < t.seqNumber) && decide (t.seqNumber ≤ newRef)
  let bs ← commits.foldlM (updateBranchStep sid) br.localChanges
  .ok { localChanges := bs, refSeq := newRef }

/-- Modelled from the spec (section 4.1): `addLocalChange` appends the change
to the local branch, rebases the shared anchor set over it (behaviour pinned by
the tests), and returns `intoDelta(change)`. -/
def EditManager.addLocalChange (m : EditManager) (change : TestChangeset) :
    Except String (Delta × EditManager) := do
  let anchors ← TestChangeRebaser.rebaseAnchors m.anchors change
  .ok (intoDelta change,
    { m with localChanges := m.localChanges ++ [change], anchors := anchors })

/-- Modelled from the spec (sections 4.1 - 4.3): `addSequencedChange`.
A gap in sequence numbers is a ProtocolViolation.  An own commit consumes the
head of the local branch (already in rebased form) and moves it to the trunk,
returning the empty delta.  A peer commit is pulled back over the peer's
in-flight branch changes, transposed over the trunk commits past its reference
number, appended to the trunk, and folded into the local branch via
`rebaseLocalBranch`. -/
def EditManager.addSequencedChange (m : EditManager) (commit : Commit) :
    Except String (Delta × EditManager) :=
  if commit.seqNumber ≠ m.trunk.length + 1 then
    .error "ProtocolViolation: sequenced commits must arrive in order with no gaps"
  else if commit.sessionId = m.localSessionId then
    match m.localChanges with
    | [] => .error "ProtocolViolation: unexpected sequenced local edit"
    | changeset :: rest =>
      .ok (Delta.empty,
        { m with trunk := m.trunk ++ [{ commit with changeset := changeset }]
                 localChanges := rest })
  else do
    let br1 ← updateBranch m.trunk commit.sessionId
      ((getBranch m.branches commit.sessionId).getD ⟨[], commit.refNumber⟩) commit.refNumber
    let pulled ← br1.localChanges.reverse.foldlM
      (fun acc bc => TestChangeRebaser.rebase acc (TestChangeRebaser.invert bc)) commit.changeset
    let fully ← rebaseChangeOverList pulled
      ((m.trunk.filter fun t => decide (commit.refNumber < t.seqNumber)).map (·.changeset))
    rebaseLocalBranch
      { m with
        branches := setBranch m.branches commit.sessionId
          ⟨br1.localChanges ++ [commit.changeset], br1.refSeq⟩
        trunk := m.trunk ++ [{ commit with changeset := fully }] }
      fully

/-- The changes a manager holds: trunk changesets followed by local changes
(`getAllChanges` of the test file, via `getTrunk` and `getLocalChanges`). -/
def getAllChanges (m : EditManager) : List TestChangeset :=
  m.trunk.map (·.changeset) ++ m.localChanges

/-! ### Exhaustive scenario machinery, embedded from the test file -/

/-- Embedding of `NUM_STEPS` from the test file. -/
def NUM_STEPS : Nat := 5

/-- Embedding of `NUM_CLIENTS` from the test file. -/
def NUM_CLIENTS : Nat := 3

/-- Embedding of `ScenarioStep`: a client mints a local change, a client's
change is sequenced by the service, or a client receives a sequenced change. -/
inductive ScenarioStep where
  | mint (client : Nat)
  | sequence (client : Nat)
  | receive (client : Nat)
deriving DecidableEq, Repr

/-- Builder state of `buildScenario`: per-client number of local (unsequenced)
changes, per-client number of pulled commits, and the sequence counter. -/
structure BuilderState where
  numLocal : List Nat
  pulled : List Nat
  seq : Nat
deriving Repr

/-- The step options open at a builder state, in the order `buildScenario`
tries them (all mints; sequence for clients with local changes; receive for
clients other than client 0 that lag behind the sequence counter). -/
def stepOptions (st : BuilderState) : List ScenarioStep :=
  ((List.range NUM_CLIENTS).map ScenarioStep.mint)
    ++ (((List.range NUM_CLIENTS).filter fun i => decide (0 < st.numLocal.getD i 0)).map
      ScenarioStep.sequence)
    ++ ((((List.range NUM_CLIENTS).drop 1).filter fun i =>
      decide (st.pulled.getD i 0 < st.seq)).map ScenarioStep.receive)

/-- Effect of a step on the builder state. -/
def applyStepMeta (st : BuilderState) : ScenarioStep → BuilderState
  | .mint i => { st with numLocal := st.numLocal.set i (st.numLocal.getD i 0 + 1) }
  | .sequence i =>
    { st with numLocal := st.numLocal.set i (st.numLocal.getD i 0 - 1), seq := st.seq + 1 }
  | .receive i => { st with pulled := st.pulled.set i (st.pulled.getD i 0 + 1) }

/-- Embedding of `buildScenario`: all scenarios of the given length from a
builder state. -/
def buildScenarios : Nat → BuilderState → List (List ScenarioStep)
  | 0, _ => [[]]
  | n + 1, st =>
    (stepOptions st).flatMap fun o => (buildScenarios n (applyStepMeta st o)).map (o :: ·)

/-- The scenario set of the exhaustive test: every valid interleaving of
`NUM_STEPS` steps between `NUM_CLIENTS` clients. -/
def allScenarios : List (List ScenarioStep) :=
  buildScenarios NUM_STEPS ⟨List.replicate NUM_CLIENTS 0, List.replicate NUM_CLIENTS 0, 0⟩

/-- Embedding of `ClientData` from `runScenario`: the client's manager, its
local changes in their original form together with their reference numbers, the
last sequence number received, and the intentions the client should know. -/
structure ClientData where
  em : EditManager
  localRecord : List (NonEmptyTestChangeset × Nat)
  ref : Nat
  intentions : List Int
deriving DecidableEq, Repr

/-- Scenario state of `runScenario`: the service trunk, the clients, and the
mint counter. -/
structure ScenarioState where
  trunk : List Commit
  clients : List ClientData
  counter : Int
deriving Repr

/-- A fresh client (embedding of `newClientData`). -/
def newClientData (i : Nat) : ClientData :=
  { em := EditManager.init (toString i), localRecord := [], ref := 0, intentions := [] }

/-- The initial scenario state of `runScenario`. -/
def initScenarioState : ScenarioState :=
  { trunk := [], clients := (List.range NUM_CLIENTS).map newClientData, counter := 0 }

/-- Per-step report: `deltaOk` records the delta assertions of `runScenario`
(the mint delta, the empty delta on own commits, and the
undo-commit-redo shape on peer commits); `emptyLocalOk` records that with no
local changes the delta of a peer commit is exactly `intoDelta` of the
transposed change appended to the trunk. -/
structure StepReport where
  deltaOk : Bool
  emptyLocalOk : Bool
deriving Repr

/-- Embedding of one step of `runScenario` (the delta assertions are recorded
in the report rather than thrown). -/
def doStep (st : ScenarioState) (step : ScenarioStep) :
    Except String (ScenarioState × StepReport) := do
  match step with
  | .mint i =>
    let client := st.clients.getD i (newClientData i)
    let counter := st.counter + 1
    let cs := TestChangeRebaser.mintChangeset client.intentions counter
    let (delta, em) ← client.em.addLocalChange (.nonEmpty cs)
    let client := { client with
      em := em
      localRecord := client.localRecord ++ [(cs, client.ref)]
      intentions := client.intentions ++ cs.intentions }
    .ok ({ st with clients := st.clients.set i client, counter := counter },
      ⟨decide (delta = asDelta cs.intentions), true⟩)
  | .sequence i =>
    match st.clients.getD i (newClientData i) with
    | client =>
      match client.localRecord.head? with
      | none => .error "No local changes to sequence"
      | some (cs, ref) =>
        .ok ({ st with trunk := st.trunk ++
          [{ sessionId := toString i, seqNumber := st.trunk.length + 1, refNumber := ref,
             changeset := .nonEmpty cs }] }, ⟨true, true⟩)
  | .receive i =>
    let client := st.clients.getD i (newClientData i)
    match st.trunk.getD client.ref ⟨"none", 0, 0, .empty⟩ with
    | commit =>
      let (delta, em) ← client.em.addSequencedChange commit
      if commit.sessionId = toString i then
        let client := { client with
          em := em
          localRecord := client.localRecord.drop 1
          ref := client.ref + 1 }
        .ok ({ st with clients := st.clients.set i client },
          ⟨decide (delta = Delta.empty), true⟩)
      else
        let localIntentions := client.localRecord.flatMap fun r => r.1.intentions
        let expected := ((localIntentions.map fun j => -j).reverse
          ++ commit.changeset.intentionsOf) ++ localIntentions
        let emptyLocalOk :=
          if client.localRecord = [] then
            match em.trunk.getLast? with
            | some e => decide (delta = intoDelta e.changeset)
            | none => false
          else true
        let n := client.intentions.length - client.localRecord.length
        let client := { client with
          em := em
          ref := client.ref + 1
          intentions := (client.intentions.take n ++ commit.changeset.intentionsOf)
            ++ client.intentions.drop n }
        .ok ({ st with clients := st.clients.set i client },
          ⟨decide (delta = asDelta expected), emptyLocalOk⟩)

/-- Whether two trunks agree on their common prefix. -/
def trunkAgree (a b : List Commit) : Bool :=
  let n := min a.length b.length
  decide (a.take n = b.take n)

/-- The per-step validity check of `runScenario` on a client: the trunk
followed by the local changes is a coherent chain composing to the client's
expected intentions, and the anchor set has accumulated exactly those
intentions. -/
def clientOk (c : ClientData) : Bool :=
  TestChangeRebaser.checkChangeList (getAllChanges c.em) c.intentions
    && decide (c.em.anchors.intentions = c.intentions)

/-- Convergence check: all pairs of clients agree on the common prefix of
their trunks. -/
def convergenceOk (cs : List ClientData) : Bool :=
  cs.all fun a => cs.all fun b => trunkAgree a.em.trunk b.em.trunk

/-- Runs a scenario, checking the chosen per-step condition after every step;
`false` if any operation of the Edit Manager fails. -/
def runScenarioWith (check : ScenarioState → StepReport → Bool)
    (steps : List ScenarioStep) : Bool :=
  (steps.foldlM (fun st step => do
    let (st', rep) ← doStep st step
    if check st' rep then Except.ok st' else Except.error "check failed") initScenarioState).isOk

/-- Per-scenario check for the peer-commit delta contract: all delta
assertions of `runScenario` hold at every step, including the
undo-commit-redo shape and the empty-local-branch case. -/
def scenarioDeltasOk (steps : List ScenarioStep) : Bool :=
  runScenarioWith (fun _ rep => rep.deltaOk && rep.emptyLocalOk) steps

/-- Per-scenario check for the invariants: after every step, every client is
coherent (`clientOk`) and all clients agree on common trunk prefixes. -/
def scenarioInvariantsOk (steps : List ScenarioStep) : Bool :=
  runScenarioWith (fun st _ => st.clients.all clientOk && convergenceOk st.clients) steps

/-! ### Derived definitions used by the verification -/

namespace TestChangeRebaser

/-- Canonical form of an intention sequence: no element is followed by its
negation (the invariant `composeIntentions` maintains). -/
def Canonical : List Int → Bool
  | [] => true
  | [_] => true
  | a :: b :: l => decide (a ≠ -b) && Canonical (b :: l)

/-- Negated reversal of an intention sequence — the intentions of the inverse
of a change (`change.intentions.map((i) => -i).reverse()`). -/
def negReverse (w : List Int) : List Int :=
  (w.map fun i => -i).reverse

end TestChangeRebaser

open TestChangeRebaser

/-- The concatenated intentions of a list of changesets. -/
def changesWord (cs : List TestChangeset) : List Int :=
  cs.flatMap TestChangeset.intentionsOf

/-- The concatenated intentions of the trunk, in trunk order. -/
def trunkWord (trunk : List Commit) : List Int :=
  trunk.flatMap fun c => c.changeset.intentionsOf

/-- The manager states reachable from a fresh manager by successful
`addLocalChange` and `addSequencedChange` operations. -/
inductive Reachable : EditManager → Prop where
  | init (sid : String) : Reachable (EditManager.init sid)
  | stepLocal (m : EditManager) (x : TestChangeset) (d : Delta) (m' : EditManager) :
      Reachable m → m.addLocalChange x = .ok (d, m') → Reachable m'
  | stepSequenced (m : EditManager) (c : Commit) (d : Delta) (m' : EditManager) :
      Reachable m → m.addSequencedChange c = .ok (d, m') → Reachable m'

/-! ### Witness fixtures -/

/-- A concrete minted local change used by witnesses. -/
def witLocalChange : TestChangeset := .nonEmpty (mintChangeset [] 1)

/-- The manager after `addLocalChange witLocalChange` on a fresh manager. -/
def witAfterLocal : EditManager :=
  { EditManager.init "0" with
    localChanges := [witLocalChange]
    anchors := ⟨[mintChangeset [] 1], [1]⟩ }

/-- A peer commit with an empty changeset. -/
def witEmptyCommit : Commit := ⟨"1", 1, 0, .empty⟩

/-- The manager after ingesting `witEmptyCommit` in state `witAfterLocal`. -/
def witAfterEmpty : EditManager :=
  { localSessionId := "0"
    trunk := [witEmptyCommit]
    branches := [("1", ⟨[.empty], 0⟩)]
    localChanges := [witLocalChange]
    anchors := ⟨[mintChangeset [] 1, ⟨[1], [1], []⟩], [1]⟩ }

/-- The own commit acknowledging `witLocalChange`. -/
def witOwnCommit : Commit := ⟨"0", 1, 0, witLocalChange⟩

/-- The manager after the own acknowledgement in state `witAfterLocal`. -/
def witAfterOwn : EditManager :=
  { localSessionId := "0"
    trunk := [witOwnCommit]
    branches := []
    localChanges := []
    anchors := ⟨[mintChangeset [] 1], [1]⟩ }

/-- Generic replay of a list of operations (local changes and sequenced
commits), collecting the emitted deltas. -/
def applyOps (m : EditManager) (ops : List (Sum TestChangeset Commit)) :
    Except String (List Delta × EditManager) :=
  ops.foldlM (fun acc op =>
    match op with
    | .inl x => (EditManager.addLocalChange acc.2 x).map fun r => (acc.1 ++ [r.1], r.2)
    | .inr c => (EditManager.addSequencedChange acc.2 c).map fun r => (acc.1 ++ [r.1], r.2))
    ([], m)

/-- The nine commits of the S3 worked example (test case
`Can rebase multiple interleaved peer and local changes`). -/
def s3c1 : Commit := ⟨"1", 1, 0, .nonEmpty (mintChangeset [] 1)⟩

def s3c2 : Commit := ⟨"2", 2, 0, .nonEmpty (mintChangeset [] 2)⟩

def s3c3 : Commit := ⟨"0", 3, 0, .nonEmpty (mintChangeset [] 3)⟩

def s3c4 : Commit := ⟨"1", 4, 1, .nonEmpty (mintChangeset [1] 4)⟩

def s3c5 : Commit := ⟨"1", 5, 2, .nonEmpty (mintChangeset [1, 2, 4] 5)⟩

def s3c6 : Commit := ⟨"0", 6, 2, .nonEmpty (mintChangeset [1, 2, 3] 6)⟩

def s3c7 : Commit := ⟨"2", 7, 0, .nonEmpty (mintChangeset [2] 7)⟩

def s3c8 : Commit := ⟨"0", 8, 2, .nonEmpty (mintChangeset [1, 2, 3, 6] 8)⟩

def s3c9 : Commit := ⟨"2", 9, 0, .nonEmpty (mintChangeset [2, 7] 9)⟩

/-- The twelve operations of the S3 worked example, in order. -/
def s3ops : List (Sum TestChangeset Commit) :=
  [.inl s3c3.changeset, .inr s3c1, .inr s3c2, .inl s3c6.changeset, .inl s3c8.changeset,
   .inr s3c3, .inr s3c4, .inr s3c5, .inr s3c6, .inr s3c7, .inr s3c8, .inr s3c9]

/-- A non-empty changeset whose input context is not in canonical form. -/
def c10bad : NonEmptyTestChangeset := ⟨[1, -1], [1], [1]⟩

/-! ### Algebra of `composeIntentions` -/

namespace TestChangeRebaser

theorem composeIntentions_nil (s : List Int) : composeIntentions s [] = s := rfl

theorem composeIntentions_append (s a b : List Int) :
    composeIntentions s (a ++ b) = composeIntentions (composeIntentions s a) b :=
  List.foldl_append ..

theorem composeIntentions_cons (s : List Int) (x : Int) (l : List Int) :
    composeIntentions s (x :: l) = composeIntentions (pushCancel s x) l := rfl

theorem composeIntentions_singleton (s : List Int) (x : Int) :
    composeIntentions s [x] = pushCancel s x := rfl

theorem eq_dropLast_concat {s : List Int} {a : Int} (h : s.getLast? = some a) :
    s = s.dropLast ++ [a] := by
  induction s using List.reverseRecOn with
  | nil => simp at h
  | append_singleton xs x ih =>
    rw [List.getLast?_concat] at h
    cases h
    rw [List.dropLast_concat]

theorem canonical_concat (s : List Int) (x : Int) :
    Canonical (s ++ [x]) = true ↔
      Canonical s = true ∧ ∀ a, s.getLast? = some a → a ≠ -x := by
  induction s with
  | nil => simp [Canonical]
  | cons a t ih =>
    cases t with
    | nil => simp [Canonical]
    | cons b t' =>
      simp only [List.cons_append, Canonical, Bool.and_eq_true, ih, List.getLast?_cons_cons]
      tauto

theorem canonical_pushCancel {s : List Int} (x : Int) (h : Canonical s = true) :
    Canonical (pushCancel s x) = true := by
  unfold pushCancel
  by_cases hl : s.getLast? = some (-x)
  · rw [if_pos hl]
    have hs := eq_dropLast_concat hl
    exact ((canonical_concat s.dropLast (-x)).mp (by rw [← hs]; exact h)).1
  · rw [if_neg hl]
    refine (canonical_concat s x).mpr ⟨h, fun a hg ha => hl ?_⟩
    rw [hg, ha]

theorem canonical_composeIntentions {s : List Int} (l : List Int) (h : Canonical s = true) :
    Canonical (composeIntentions s l) = true := by
  induction l generalizing s with
  | nil => exact h
  | cons x t ih => exact ih (canonical_pushCancel x h)

theorem composeIntentions_cancel_pair {t : List Int} (x : Int) (h : Canonical t = true) :
    composeIntentions t [x, -x] = t := by
  show pushCancel (pushCancel t x) (-x) = t
  by_cases hl : t.getLast? = some (-x)
  · have ht := eq_dropLast_concat hl
    have h1 : pushCancel t x = t.dropLast := by unfold pushCancel; rw [if_pos hl]
    have hd := (canonical_concat t.dropLast (-x)).mp (by rw [← ht]; exact h)
    have hne : ¬ t.dropLast.getLast? = some (- -x) := by
      intro hg
      exact hd.2 _ hg rfl
    rw [h1]
    unfold pushCancel
    rw [if_neg hne]
    exact ht.symm
  · have h1 : pushCancel t x = t ++ [x] := by unfold pushCancel; rw [if_neg hl]
    rw [h1]
    unfold pushCancel
    rw [List.getLast?_concat, if_pos (by rw [neg_neg]), List.dropLast_concat]

theorem composeIntentions_cancel_pair' {t : List Int} (x : Int) (h : Canonical t = true) :
    composeIntentions t [-x, x] = t := by
  have := composeIntentions_cancel_pair (t := t) (-x) h
  rwa [neg_neg] at this

theorem negReverse_nil : negReverse [] = [] := rfl

theorem negReverse_cons (x : Int) (w : List Int) :
    negReverse (x :: w) = negReverse w ++ [-x] := by
  simp [negReverse]

theorem negReverse_append (a b : List Int) :
    negReverse (a ++ b) = negReverse b ++ negReverse a := by
  simp [negReverse]

theorem negReverse_eq_nil {w : List Int} (h : negReverse w = []) : w = [] := by
  cases w with
  | nil => rfl
  | cons x t => rw [negReverse_cons] at h; simp at h

theorem composeIntentions_sandwich_right {t : List Int} (w : List Int)
    (h : Canonical t = true) :
    composeIntentions t (w ++ negReverse w) = t := by
  induction w generalizing t with
  | nil => rfl
  | cons x w' ih =>
    rw [negReverse_cons, List.cons_append, composeIntentions_cons, ← List.append_assoc,
      composeIntentions_append, ih (canonical_pushCancel x h)]
    exact composeIntentions_cancel_pair x h

theorem composeIntentions_sandwich_left {t : List Int} (w : List Int)
    (h : Canonical t = true) :
    composeIntentions t (negReverse w ++ w) = t := by
  induction w with
  | nil => rfl
  | cons x w' ih =>
    have key : negReverse (x :: w') ++ (x :: w') = negReverse w' ++ ([-x, x] ++ w') := by
      rw [negReverse_cons]
      simp
    rw [key, composeIntentions_append, composeIntentions_append,
      composeIntentions_cancel_pair' x
        (canonical_composeIntentions (negReverse w') h),
      ← composeIntentions_append]
    exact ih

theorem composeIntentions_nil_sandwich_right (w : List Int) :
    composeIntentions [] (w ++ negReverse w) = [] :=
  composeIntentions_sandwich_right w rfl

theorem composeIntentions_nil_sandwich_left (w : List Int) :
    composeIntentions [] (negReverse w ++ w) = [] :=
  composeIntentions_sandwich_left w rfl

theorem composeIntentions_normal_form {s : List Int} (u : List Int)
    (h : Canonical s = true) :
    composeIntentions s (composeIntentions [] u) = composeIntentions s u := by
  induction u using List.reverseRecOn with
  | nil => rfl
  | append_singleton u' x ih =>
    rw [composeIntentions_append, composeIntentions_singleton, composeIntentions_append,
      composeIntentions_singleton]
    by_cases hl : (composeIntentions [] u').getLast? = some (-x)
    · set N := composeIntentions [] u' with hNdef
      have hN : N = N.dropLast ++ [-x] := eq_dropLast_concat hl
      have h1 : pushCancel N x = N.dropLast := by unfold pushCancel; rw [if_pos hl]
      rw [h1, ← ih]
      conv_rhs => rw [hN]
      rw [composeIntentions_append, composeIntentions_singleton]
      have hcan : Canonical (composeIntentions s N.dropLast) = true :=
        canonical_composeIntentions _ h
      exact (composeIntentions_cancel_pair' x hcan).symm
    · have h1 : pushCancel (composeIntentions [] u') x = composeIntentions [] u' ++ [x] := by
        unfold pushCancel
        rw [if_neg hl]
      rw [h1, composeIntentions_append, composeIntentions_singleton, ih]

end TestChangeRebaser

/-! ### Word-level facts about the Edit Manager operations -/

open TestChangeRebaser

@[simp]
theorem except_ok_bind {α β ε : Type} (a : α) (f : α → Except ε β) :
    (Except.ok a >>= f) = f a := rfl

@[simp]
theorem except_error_bind {α β ε : Type} (e : ε) (f : α → Except ε β) :
    ((Except.error e : Except ε α) >>= f) = Except.error e := rfl

@[simp]
theorem except_pure_eq_ok {α ε : Type} (a : α) : (pure a : Except ε α) = Except.ok a := rfl

theorem changesWord_nil : changesWord [] = [] := rfl

theorem changesWord_cons (c : TestChangeset) (cs : List TestChangeset) :
    changesWord (c :: cs) = c.intentionsOf ++ changesWord cs := rfl

theorem changesWord_append (a b : List TestChangeset) :
    changesWord (a ++ b) = changesWord a ++ changesWord b := by
  simp [changesWord]

theorem trunkWord_append (a b : List Commit) :
    trunkWord (a ++ b) = trunkWord a ++ trunkWord b := by
  simp [trunkWord]

theorem invert_intentionsOf (c : TestChangeset) :
    (invert c).intentionsOf = negReverse c.intentionsOf := by
  cases c <;> simp [invert, TestChangeset.intentionsOf, negReverse]

theorem rebase_ok_intentionsOf {c o r : TestChangeset} (h : rebase c o = .ok r) :
    r.intentionsOf = c.intentionsOf := by
  cases c with
  | empty => simp [rebase] at h; subst h; rfl
  | nonEmpty cc =>
    cases o with
    | empty => simp [rebase] at h; subst h; rfl
    | nonEmpty oo =>
      simp only [rebase] at h
      split at h
      · cases h
        rfl
      · cases h

theorem rebaseChangeOverList_intentionsOf {c r : TestChangeset} {overs : List TestChangeset}
    (h : rebaseChangeOverList c overs = .ok r) :
    r.intentionsOf = c.intentionsOf := by
  induction overs generalizing c with
  | nil =>
    simp [rebaseChangeOverList, List.foldlM_nil] at h
    subst h
    rfl
  | cons o t ih =>
    simp only [rebaseChangeOverList, List.foldlM_cons] at h
    cases hr : rebase c o with
    | error e => rw [hr] at h; simp at h
    | ok c' =>
      rw [hr] at h
      simp only [except_ok_bind] at h
      rw [ih h]
      exact rebase_ok_intentionsOf hr

theorem pullback_intentionsOf {c r : TestChangeset} {bs : List TestChangeset}
    (h : bs.foldlM (fun acc bc => rebase acc (invert bc)) c = .ok r) :
    r.intentionsOf = c.intentionsOf := by
  induction bs generalizing c with
  | nil =>
    simp [List.foldlM_nil] at h
    subst h
    rfl
  | cons b t ih =>
    simp only [List.foldlM_cons] at h
    cases hr : rebase c (invert b) with
    | error e => rw [hr] at h; simp at h
    | ok c' =>
      rw [hr] at h
      simp only [except_ok_bind] at h
      rw [ih h]
      exact rebase_ok_intentionsOf hr

theorem rebaseLoop_words {tc : TestChangeset} {pend ncs invs ncs' invs' : List TestChangeset}
    (h : rebaseLoop tc pend ncs invs = .ok (ncs', invs')) :
    changesWord ncs' = changesWord ncs ++ changesWord pend ∧
      changesWord invs' = negReverse (changesWord pend) ++ changesWord invs := by
  induction pend generalizing ncs invs with
  | nil =>
    simp only [rebaseLoop] at h
    cases h
    constructor <;> simp [changesWord, negReverse]
  | cons l rest ih =>
    simp only [rebaseLoop] at h
    cases ha : rebaseChangeOverList l invs with
    | error e => rw [ha] at h; simp at h
    | ok a =>
      rw [ha] at h
      simp only [except_ok_bind] at h
      cases hb : rebase a tc with
      | error e => rw [hb] at h; simp at h
      | ok b =>
        rw [hb] at h
        simp only [except_ok_bind] at h
        cases hc : rebaseChangeOverList b ncs with
        | error e => rw [hc] at h; simp at h
        | ok c =>
          rw [hc] at h
          simp only [except_ok_bind] at h
          obtain ⟨h1, h2⟩ := ih h
          have hci : c.intentionsOf = l.intentionsOf := by
            rw [rebaseChangeOverList_intentionsOf hc, rebase_ok_intentionsOf hb,
              rebaseChangeOverList_intentionsOf ha]
          constructor
          · rw [h1, changesWord_append, changesWord_cons, changesWord_cons, changesWord_nil,
              hci]
            simp
          · rw [h2, changesWord_cons, invert_intentionsOf, changesWord_cons, negReverse_append]
            simp [List.append_assoc]

theorem composeFold_intentions {cs : List TestChangeset}
    {st st' : Option (List Int × List Int) × List Int}
    (h : cs.foldlM composeAcc st = .ok st') :
    st'.2 = composeIntentions st.2 (changesWord cs) := by
  induction cs generalizing st with
  | nil =>
    simp [List.foldlM_nil] at h
    subst h
    rfl
  | cons c t ih =>
    simp only [List.foldlM_cons] at h
    cases c with
    | empty =>
      simp only [composeAcc, except_ok_bind] at h
      rw [ih h, changesWord_cons]
      rfl
    | nonEmpty cc =>
      simp only [composeAcc] at h
      cases hst : st.1 with
      | none =>
        rw [hst] at h
        simp only [except_ok_bind] at h
        rw [ih h, changesWord_cons, composeIntentions_append]
        rfl
      | some p =>
        obtain ⟨ic, oc⟩ := p
        rw [hst] at h
        simp only at h
        by_cases hic : cc.inputContext = oc
        · rw [if_pos hic] at h
          simp only [except_ok_bind] at h
          rw [ih h, changesWord_cons, composeIntentions_append]
          rfl
        · rw [if_neg hic] at h
          simp at h

theorem composeFold_none {cs : List TestChangeset}
    {st st' : Option (List Int × List Int) × List Int}
    (h : cs.foldlM composeAcc st = .ok st') (hn : st'.1 = none) :
    st.1 = none ∧ changesWord cs = [] := by
  induction cs generalizing st with
  | nil =>
    simp [List.foldlM_nil] at h
    subst h
    exact ⟨hn, rfl⟩
  | cons c t ih =>
    simp only [List.foldlM_cons] at h
    cases c with
    | empty =>
      simp only [composeAcc, except_ok_bind] at h
      obtain ⟨h1, h2⟩ := ih h
      exact ⟨h1, by rw [changesWord_cons, h2]; rfl⟩
    | nonEmpty cc =>
      simp only [composeAcc] at h
      cases hst : st.1 with
      | none =>
        rw [hst] at h
        simp only [except_ok_bind] at h
        obtain ⟨h1, _⟩ := ih h
        simp at h1
      | some p =>
        obtain ⟨ic, oc⟩ := p
        rw [hst] at h
        simp only at h
        by_cases hic : cc.inputContext = oc
        · rw [if_pos hic] at h
          simp only [except_ok_bind] at h
          obtain ⟨h1, _⟩ := ih h
          simp at h1
        · rw [if_neg hic] at h
          simp at h

theorem compose_intentionsOf {cs : List TestChangeset} {ch : TestChangeset}
    (h : compose cs = .ok ch) :
    ch.intentionsOf = composeIntentions [] (changesWord cs) := by
  unfold compose at h
  cases hf : cs.foldlM composeAcc (none, []) with
  | error e => rw [hf] at h; simp at h
  | ok st =>
    rw [hf] at h
    simp only [except_ok_bind] at h
    have hst := composeFold_intentions hf
    cases hst1 : st.1 with
    | some p =>
      rw [hst1] at h
      obtain ⟨ic, oc⟩ := p
      simp only at h
      cases h
      exact hst
    | none =>
      rw [hst1] at h
      simp only at h
      cases h
      obtain ⟨_, hw⟩ := composeFold_none hf hst1
      rw [hw]
      rfl

theorem rebaseAnchors_intentions {A A' : TestAnchorSet} {over : TestChangeset}
    (h : rebaseAnchors A over = .ok A') :
    A'.intentions = composeIntentions A.intentions over.intentionsOf := by
  cases over with
  | empty =>
    simp only [rebaseAnchors] at h
    cases h
    rfl
  | nonEmpty o =>
    simp only [rebaseAnchors] at h
    cases hl : A.rebases.getLast? with
    | some lastChange =>
      rw [hl] at h
      simp only at h
      by_cases hic : o.inputContext = lastChange.outputContext
      · rw [if_pos hic] at h
        cases h
        rfl
      · rw [if_neg hic] at h
        cases h
    | none =>
      rw [hl] at h
      cases h
      rfl

/-! ### Reachable manager states and the anchor parity invariant -/

theorem addLocalChange_parts {m : EditManager} {x : TestChangeset} {d : Delta}
    {m' : EditManager} (h : m.addLocalChange x = .ok (d, m')) :
    d = intoDelta x ∧ m'.trunk = m.trunk ∧ m'.localChanges = m.localChanges ++ [x] ∧
      m'.branches = m.branches ∧ m'.localSessionId = m.localSessionId ∧
      rebaseAnchors m.anchors x = .ok m'.anchors := by
  unfold EditManager.addLocalChange at h
  cases hra : rebaseAnchors m.anchors x with
  | error e => rw [hra] at h; simp at h
  | ok a =>
    rw [hra] at h
    simp only [except_ok_bind, Except.ok.injEq, Prod.mk.injEq] at h
    obtain ⟨hd, hm⟩ := h
    subst hd
    subst hm
    exact ⟨rfl, rfl, rfl, rfl, rfl, rfl⟩

theorem addSequencedChange_own {m : EditManager} {c : Commit} {d : Delta} {m' : EditManager}
    (hsid : c.sessionId = m.localSessionId) (h : m.addSequencedChange c = .ok (d, m')) :
    ∃ l rest, m.localChanges = l :: rest ∧ d = Delta.empty ∧
      m' = { m with trunk := m.trunk ++ [{ c with changeset := l }], localChanges := rest } := by
  unfold EditManager.addSequencedChange at h
  by_cases hseq : c.seqNumber = m.trunk.length + 1
  · rw [if_neg (by simp [hseq]), if_pos hsid] at h
    cases hl : m.localChanges with
    | nil => rw [hl] at h; simp at h
    | cons l rest =>
      rw [hl] at h
      simp only [Except.ok.injEq, Prod.mk.injEq] at h
      obtain ⟨hd, hm⟩ := h
      subst hd
      subst hm
      exact ⟨l, rest, rfl, rfl, rfl⟩
  · rw [if_pos hseq] at h
    simp at h

theorem addSequencedChange_peer {m : EditManager} {c : Commit} {d : Delta} {m' : EditManager}
    (hsid : ¬ c.sessionId = m.localSessionId) (h : m.addSequencedChange c = .ok (d, m')) :
    ∃ fully ncs invs net anch,
      rebaseLoop fully m.localChanges [] [] = .ok (ncs, invs) ∧
      compose (invs ++ [fully] ++ ncs) = .ok net ∧
      rebaseAnchors m.anchors net = .ok anch ∧
      d = intoDelta net ∧
      m'.trunk = m.trunk ++ [{ c with changeset := fully }] ∧
      m'.localChanges = ncs ∧
      m'.anchors = anch ∧
      m'.localSessionId = m.localSessionId ∧
      fully.intentionsOf = c.changeset.intentionsOf := by
  unfold EditManager.addSequencedChange at h
  by_cases hseq : c.seqNumber = m.trunk.length + 1
  · rw [if_neg (by simp [hseq]), if_neg hsid] at h
    cases hup : updateBranch m.trunk c.sessionId
        ((getBranch m.branches c.sessionId).getD ⟨[], c.refNumber⟩) c.refNumber with
    | error e => rw [hup] at h; simp at h
    | ok br1 =>
      rw [hup] at h
      simp only [except_ok_bind] at h
      cases hpb : br1.localChanges.reverse.foldlM
          (fun acc bc => rebase acc (invert bc)) c.changeset with
      | error e => rw [hpb] at h; simp at h
      | ok pulled =>
        rw [hpb] at h
        simp only [except_ok_bind] at h
        cases hfr : rebaseChangeOverList pulled
            ((m.trunk.filter fun t => decide (c.refNumber < t.seqNumber)).map (·.changeset)) with
        | error e => rw [hfr] at h; simp at h
        | ok fully =>
          rw [hfr] at h
          simp only [except_ok_bind] at h
          unfold rebaseLocalBranch at h
          cases hloop : rebaseLoop fully m.localChanges [] [] with
          | error e => rw [hloop] at h; simp at h
          | ok p =>
            obtain ⟨ncs, invs⟩ := p
            rw [hloop] at h
            simp only [except_ok_bind] at h
            cases hcomp : compose (invs ++ [fully] ++ ncs) with
            | error e => rw [hcomp] at h; simp at h
            | ok net =>
              rw [hcomp] at h
              simp only [except_ok_bind] at h
              cases hanch : rebaseAnchors m.anchors net with
              | error e => rw [hanch] at h; simp at h
              | ok anch =>
                rw [hanch] at h
                simp only [except_ok_bind, Except.ok.injEq, Prod.mk.injEq] at h
                obtain ⟨hd, hm⟩ := h
                subst hd
                subst hm
                refine ⟨fully, ncs, invs, net, anch, hloop, hcomp, hanch, rfl, rfl, rfl, rfl, rfl, ?_⟩
                rw [rebaseChangeOverList_intentionsOf hfr, pullback_intentionsOf hpb]
  · rw [if_pos hseq] at h
    simp at h

theorem anchors_parity {m : EditManager} (h : Reachable m) :
    m.anchors.intentions =
      composeIntentions [] (trunkWord m.trunk ++ changesWord m.localChanges) := by
  induction h with
  | init sid => rfl
  | stepLocal m x d m' hR hop ih =>
    obtain ⟨hd, htr, hlc, hbr, hsid, hra⟩ := addLocalChange_parts hop
    have hA := rebaseAnchors_intentions hra
    rw [hA, ih, htr, hlc, changesWord_append, ← composeIntentions_append]
    congr 1
    simp [changesWord, List.append_assoc]
  | stepSequenced m c d m' hR hop ih =>
    by_cases hsid : c.sessionId = m.localSessionId
    · obtain ⟨l, rest, hlc, hd, hm⟩ := addSequencedChange_own hsid hop
      subst hm
      simp only
      rw [ih, hlc, trunkWord_append, changesWord_cons]
      congr 1
      simp [trunkWord, List.append_assoc]
    · obtain ⟨fully, ncs, invs, net, anch, hloop, hcomp, hanch, hd, htr, hlc, hanch', hsid', _⟩ :=
        addSequencedChange_peer hsid hop
      obtain ⟨hW1, hW2⟩ := rebaseLoop_words hloop
      rw [changesWord_nil, List.nil_append] at hW1
      rw [changesWord_nil, List.append_nil] at hW2
      have hnet := compose_intentionsOf hcomp
      rw [changesWord_append, changesWord_append, changesWord_cons, changesWord_nil,
        List.append_nil, hW1, hW2] at hnet
      have hA := rebaseAnchors_intentions hanch
      have hcanT : Canonical (composeIntentions [] (trunkWord m.trunk)) = true :=
        canonical_composeIntentions _ rfl
      have hcanA : Canonical
          (composeIntentions [] (trunkWord m.trunk ++ changesWord m.localChanges)) = true :=
        canonical_composeIntentions _ rfl
      rw [hnet, ih, composeIntentions_normal_form _ hcanA, ← composeIntentions_append] at hA
      have hlist : (trunkWord m.trunk ++ changesWord m.localChanges) ++
          ((negReverse (changesWord m.localChanges) ++ fully.intentionsOf) ++
            changesWord m.localChanges) =
          (trunkWord m.trunk ++
            (changesWord m.localChanges ++ negReverse (changesWord m.localChanges))) ++
            (fully.intentionsOf ++ changesWord m.localChanges) := by
        simp [List.append_assoc]
      rw [hlist, composeIntentions_append, composeIntentions_append,
        composeIntentions_append [] (trunkWord m.trunk)
          (changesWord m.localChanges ++ negReverse (changesWord m.localChanges)),
        composeIntentions_sandwich_right _ hcanT] at hA
      have htw : trunkWord [{ sessionId := c.sessionId, seqNumber := c.seqNumber, refNumber := c.refNumber, changeset := fully }] = fully.intentionsOf := by
        simp [trunkWord]
      rw [hanch', htr, hlc, hW1, trunkWord_append, htw, composeIntentions_append,
        composeIntentions_append, hA]

/-! ### Claims -/

set_option maxHeartbeats 0 in
/-- C1: for every peer commit ingested via `addSequencedChange` across every
valid interleaving of the exhaustive scenario family (3 clients, 5 steps), the
returned delta is `intoDelta` of the undo-commit-redo composition: its
intention sequence is the local intentions negated in reverse order, then the
commit's intentions, then the local intentions again; and when the local
branch is empty it is exactly `intoDelta` of the transposed change appended to
the trunk. -/
theorem C1_peer_rebase_delta_contract : allScenarios.all scenarioDeltasOk = true := by decide

set_option maxHeartbeats 0 in
/-- C2: for every valid interleaving of Mint/Sequence/Receive steps over
3 clients and 5 steps, after every step each client's trunk followed by its
local changes is a context-coherent chain whose composed intentions equal
that client's expected intention sequence, the anchor set has accumulated
exactly those intentions, and all clients agree on the common prefix of their
trunks. -/
theorem C2_exhaustive_interleaving_invariants :
    allScenarios.all scenarioInvariantsOk = true := by decide

/-- C3: an `addSequencedChange` whose commit carries the local session id (at
the expected sequence number, with a non-empty local branch) returns the empty
delta and consumes exactly one entry (the head) of the local branch. -/
theorem C3_own_ack_silent : ∀ (m : EditManager) (c : Commit),
    c.seqNumber = m.trunk.length + 1 → c.sessionId = m.localSessionId →
    m.localChanges ≠ [] →
    ∃ m', m.addSequencedChange c = .ok (Delta.empty, m') ∧
      m'.localChanges.length + 1 = m.localChanges.length := by
  intro m c hseq hsid hne
  unfold EditManager.addSequencedChange
  rw [if_neg (by simp [hseq]), if_pos hsid]
  cases hl : m.localChanges with
  | nil => exact absurd hl hne
  | cons l rest => exact ⟨_, rfl, by simp⟩

/-- Witness for C3 at a concrete state with one pending local change. -/
theorem C3_own_ack_silent_witness :
    ∃ m', EditManager.addSequencedChange witAfterLocal witOwnCommit = .ok (Delta.empty, m') ∧
      m'.localChanges.length + 1 = witAfterLocal.localChanges.length :=
  C3_own_ack_silent witAfterLocal witOwnCommit (by rfl) (by rfl) (by decide)

/-- C4 counterexample: `addLocalChange` does not leave everything but the
local branch unchanged — the anchor set is rebased over the new change, so the
result is not the input state with only the local branch extended. -/
theorem C4_counterexample_anchors_effect :
    EditManager.addLocalChange (EditManager.init "0") witLocalChange ≠
      .ok (intoDelta witLocalChange,
        { EditManager.init "0" with localChanges := [witLocalChange] }) := by
  intro h
  have := congrArg (fun r =>
    match r with
    | Except.ok p => p.2.anchors.intentions
    | Except.error _ => []) h
  simp only [EditManager.addLocalChange, EditManager.init, rebaseAnchors, witLocalChange,
    mintChangeset] at this
  exact absurd this (by decide)

/-- C4 (amended): every successful `addLocalChange(x)` returns exactly
`intoDelta(x)`, leaves the trunk unchanged, appends `x` to the local branch,
and (the amendment) rebases the anchor set over `x`. -/
theorem C4_local_first_locality : ∀ (m : EditManager) (x : TestChangeset) (d : Delta)
    (m' : EditManager), m.addLocalChange x = .ok (d, m') →
    d = intoDelta x ∧ m'.trunk = m.trunk ∧ m'.localChanges = m.localChanges ++ [x] ∧
      rebaseAnchors m.anchors x = .ok m'.anchors := by
  intro m x d m' h
  obtain ⟨hd, htr, hlc, _, _, hra⟩ := addLocalChange_parts h
  exact ⟨hd, htr, hlc, hra⟩

/-- Witness for C4 on a fresh manager. -/
theorem C4_local_first_locality_witness :
    Delta.root [1] = intoDelta witLocalChange ∧
    witAfterLocal.trunk = (EditManager.init "0").trunk ∧
    witAfterLocal.localChanges = (EditManager.init "0").localChanges ++ [witLocalChange] ∧
    rebaseAnchors (EditManager.init "0").anchors witLocalChange = .ok witAfterLocal.anchors :=
  C4_local_first_locality (EditManager.init "0") witLocalChange (Delta.root [1]) witAfterLocal
    (by rfl)

/-- C5 counterexample: after a single `addLocalChange` on a fresh manager the
anchor set has accumulated the local intention `1` while the trunk is empty,
so the anchor intentions do not equal the trunk intentions. -/
theorem C5_counterexample_anchor_trunk_parity :
    (EditManager.addLocalChange (EditManager.init "0") witLocalChange).map
      (fun r => decide (r.2.anchors.intentions = trunkWord r.2.trunk)) = .ok false := by rfl

/-- C5 (amended): in every reachable manager state the intentions accumulated
in the anchor set equal the composition of the trunk intentions followed by
the local-branch intentions (not the trunk intentions alone). -/
theorem C5_anchor_parity : ∀ m : EditManager, Reachable m →
    m.anchors.intentions =
      composeIntentions [] (trunkWord m.trunk ++ changesWord m.localChanges) :=
  fun _ h => anchors_parity h

/-- Witness for C5 at the reachable state after one local change. -/
theorem C5_anchor_parity_witness :
    witAfterLocal.anchors.intentions =
      composeIntentions []
        (trunkWord witAfterLocal.trunk ++ changesWord witAfterLocal.localChanges) :=
  C5_anchor_parity witAfterLocal
    (Reachable.stepLocal (EditManager.init "0") witLocalChange (Delta.root [1]) witAfterLocal
      (Reachable.init "0") (by rfl))

/-- C6 counterexample: `addLocalChange` does change the anchor set state (it
rebases the anchors over the new local change), contradicting the claim that
the anchor set is touched only during `addSequencedChange`. -/
theorem C6_counterexample_local_change_rebases_anchors :
    (EditManager.addLocalChange (EditManager.init "0") witLocalChange).map
      (fun r => decide (r.2.anchors = (EditManager.init "0").anchors)) = .ok false := by rfl

/-- C6 (amended): contrary to the claim that the shared Anchor Set is touched
only during `addSequencedChange`, every successful `addLocalChange(x)` calls
`rebaseAnchors` on it, rebasing the anchor set over `x`; an own-commit
`addSequencedChange` leaves the anchor set unchanged. -/
theorem C6_anchor_call_discipline :
    (∀ (m : EditManager) (x : TestChangeset) (d : Delta) (m' : EditManager),
        m.addLocalChange x = .ok (d, m') → rebaseAnchors m.anchors x = .ok m'.anchors) ∧
    (∀ (m : EditManager) (c : Commit) (d : Delta) (m' : EditManager),
        c.sessionId = m.localSessionId → m.addSequencedChange c = .ok (d, m') →
        m'.anchors = m.anchors) := by
  constructor
  · intro m x d m' h
    exact (addLocalChange_parts h).2.2.2.2.2
  · intro m c d m' hsid h
    obtain ⟨l, rest, _, _, hm⟩ := addSequencedChange_own hsid h
    rw [hm]

/-- Witness for C6: the anchor rebase performed by a concrete `addLocalChange`
and the anchor preservation of a concrete own acknowledgement. -/
theorem C6_anchor_call_discipline_witness :
    rebaseAnchors (EditManager.init "0").anchors witLocalChange = .ok witAfterLocal.anchors ∧
    witAfterOwn.anchors = witAfterLocal.anchors :=
  ⟨C6_anchor_call_discipline.1 (EditManager.init "0") witLocalChange (Delta.root [1])
      witAfterLocal (by rfl),
    C6_anchor_call_discipline.2 witAfterLocal witOwnCommit Delta.empty witAfterOwn
      (by rfl) (by rfl)⟩

/-- C7: the S3 worked example — the twelve operations of the interleaved
local/peer scenario emit exactly the reference deltas, in order, and the final
anchor intentions are [1..9]. -/
theorem C7_s3_worked_example :
    (applyOps (EditManager.init "0") s3ops).map (fun r => (r.1, r.2.anchors.intentions)) =
      .ok ([asDelta [3], asDelta [-3, 1, 3], asDelta [-3, 2, 3], asDelta [6], asDelta [8],
        Delta.empty, asDelta [-8, -6, 4, 6, 8], asDelta [-8, -6, 5, 6, 8], Delta.empty,
        asDelta [-8, 7, 8], Delta.empty, asDelta [9]],
        [1, 2, 3, 4, 5, 6, 7, 8, 9]) := by rfl

/-- C8: whenever `addSequencedChange` of a peer commit carrying an
empty-intention changeset returns, it returns the empty delta (the
undo-commit-redo word cancels completely) and the anchor set's accumulated
intentions are unchanged, for every state of the local branch. -/
theorem C8_empty_change_noop : ∀ (m : EditManager) (c : Commit) (d : Delta)
    (m' : EditManager), c.changeset = .empty → ¬ c.sessionId = m.localSessionId →
    m.addSequencedChange c = .ok (d, m') →
    d = Delta.empty ∧ m'.anchors.intentions = m.anchors.intentions := by
  intro m c d m' hcs hsid h
  obtain ⟨fully, ncs, invs, net, anch, hloop, hcomp, hanch, hd, htr, hlc, hanch', hsid', hfi⟩ :=
    addSequencedChange_peer hsid h
  obtain ⟨hW1, hW2⟩ := rebaseLoop_words hloop
  rw [changesWord_nil, List.nil_append] at hW1
  rw [changesWord_nil, List.append_nil] at hW2
  have hnet := compose_intentionsOf hcomp
  rw [changesWord_append, changesWord_append, changesWord_cons, changesWord_nil,
    List.append_nil, hW1, hW2, hfi, hcs] at hnet
  rw [show TestChangeset.empty.intentionsOf = [] from rfl, List.append_nil] at hnet
  rw [composeIntentions_nil_sandwich_left (changesWord m.localChanges)] at hnet
  constructor
  · rw [hd]
    unfold intoDelta
    rw [hnet]
    rfl
  · rw [hanch', rebaseAnchors_intentions hanch, hnet]
    rfl

/-- Witness for C8 at a concrete state with one pending local change. -/
theorem C8_empty_change_noop_witness :
    Delta.empty = Delta.empty ∧
      witAfterEmpty.anchors.intentions = witAfterLocal.anchors.intentions :=
  C8_empty_change_noop witAfterLocal witEmptyCommit Delta.empty witAfterEmpty
    (by rfl) (by decide) (by rfl)

/-- C9: every `addSequencedChange` whose commit's sequence number is not the
trunk length plus one is rejected as a ProtocolViolation and nothing is
ingested. -/
theorem C9_seq_gap_protocol_violation : ∀ (m : EditManager) (c : Commit),
    c.seqNumber ≠ m.trunk.length + 1 →
    m.addSequencedChange c =
      .error "ProtocolViolation: sequenced commits must arrive in order with no gaps" := by
  intro m c h
  unfold EditManager.addSequencedChange
  rw [if_pos h]

/-- Witness for C9 with a gapped sequence number on a fresh manager. -/
theorem C9_seq_gap_protocol_violation_witness :
    EditManager.addSequencedChange (EditManager.init "0") ⟨"1", 5, 0, .empty⟩ =
      .error "ProtocolViolation: sequenced commits must arrive in order with no gaps" :=
  C9_seq_gap_protocol_violation (EditManager.init "0") ⟨"1", 5, 0, .empty⟩ (by decide)

/-- C10 counterexample: for the non-empty changeset with non-canonical input
context `[1, -1]`, composing it with its inverse yields output context `[]`,
which differs from its input context — so the claimed cancellation law fails
as stated. -/
theorem C10_counterexample_invert_compose :
    compose [.nonEmpty c10bad, invert (.nonEmpty c10bad)] =
        .ok (.nonEmpty ⟨[1, -1], [], []⟩) ∧
      ([] : List Int) ≠ c10bad.inputContext := by
  constructor
  · rfl
  · decide

/-- C10 (amended): for every non-empty changeset `c`, `invert(invert(c)) = c`;
and when the output context of `c` is `composeIntentions` of its input context
and intentions and its input context is in canonical form,
`compose([c, invert(c)])` yields the changeset with empty intentions whose
output context equals the input context of `c`. -/
theorem C10_invert_compose_cancellation : ∀ cc : NonEmptyTestChangeset,
    invert (invert (.nonEmpty cc)) = .nonEmpty cc ∧
      (Canonical cc.inputContext = true →
        cc.outputContext = composeIntentions cc.inputContext cc.intentions →
        compose [.nonEmpty cc, invert (.nonEmpty cc)] =
          .ok (.nonEmpty ⟨cc.inputContext, cc.inputContext, []⟩)) := by
  intro cc
  obtain ⟨ic, oc, w⟩ := cc
  constructor
  · simp [invert, List.map_reverse, List.map_map, Function.comp_def, neg_neg]
  · intro hcan hwf
    simp only at hcan hwf
    subst hwf
    unfold compose
    simp only [List.foldlM_cons, List.foldlM_nil, composeAcc, invert, except_ok_bind,
      except_pure_eq_ok, if_true]
    rw [show ((w.map fun i => -i).reverse) = negReverse w from rfl,
      ← composeIntentions_append, ← composeIntentions_append,
      composeIntentions_sandwich_right w hcan, composeIntentions_nil_sandwich_right w]

/-- Witness for C10 at a minted changeset. -/
theorem C10_invert_compose_cancellation_witness :
    compose [.nonEmpty (mintChangeset [] 1), invert (.nonEmpty (mintChangeset [] 1))] =
      .ok (.nonEmpty ⟨(mintChangeset [] 1).inputContext, (mintChangeset [] 1).inputContext,
        []⟩) :=
  (C10_invert_compose_cancellation (mintChangeset [] 1)).2 (by rfl) (by rfl)
